import Mathlib

/-!
Verification of the Well-Architected Tool updater's note-consolidation logic
(`src/wa_tool_updater/main.py`), the report generator's rule-name parser
(`src/wa_report_generator/main.py`), and the compliance-data pagination
(`get_rule_details` in both files).

Strings are modelled as `List Char` (Python strings, indexed by code point).
`str.find` is modelled by `findSub`, slicing by `List.take` / `List.drop`,
and Python's negative-slice arithmetic by `pyTake` over `Int`.
-/

namespace WATool

/-- Boolean test that `p` is an initial segment of `s` (Python `str.startswith`,
also the building block of `str.find`). -/
def startsWith : List Char → List Char → Bool
  | [], _ => true
  | _ :: _, [] => false
  | a :: p, b :: s => a == b && startsWith p s

/-- `pat` occurs in `s` at index `i`. -/
def occursAt (s pat : List Char) (i : Nat) : Prop :=
  startsWith pat (s.drop i) = true

instance (s pat : List Char) (i : Nat) : Decidable (occursAt s pat i) := by
  unfold occursAt; infer_instance

/-- Helper for `findSub`: scan from index `i`. -/
def findSubAux (p : List Char) : List Char → Nat → Option Nat
  | [], i => if startsWith p [] then some i else none
  | a :: t, i => if startsWith p (a :: t) then some i else findSubAux p t (i + 1)

/-- Python `s.find(p)`: index of the first occurrence of `p` in `s`,
`none` when absent (Python returns `-1`). -/
def findSub (s p : List Char) : Option Nat :=
  findSubAux p s 0

theorem startsWith_iff (p : List Char) : ∀ s : List Char, startsWith p s = true ↔ ∃ t, s = p ++ t := by
  induction p with
  | nil => intro s; simp [startsWith]
  | cons a p ih =>
    intro s
    cases s with
    | nil => simp [startsWith]
    | cons b t =>
      simp only [startsWith, Bool.and_eq_true, beq_iff_eq]
      constructor
      · rintro ⟨rfl, h⟩
        obtain ⟨u, rfl⟩ := (ih t).mp h
        exact ⟨u, rfl⟩
      · rintro ⟨u, hu⟩
        injection hu with h1 h2
        exact ⟨h1.symm, (ih t).mpr ⟨u, h2⟩⟩

theorem occursAt_iff (s p : List Char) (i : Nat) : occursAt s p i ↔ ∃ t, s.drop i = p ++ t :=
  startsWith_iff p (s.drop i)

theorem occursAt_bound {s p : List Char} {i : Nat} (hp : p ≠ []) (h : occursAt s p i) :
    i + p.length ≤ s.length := by
  obtain ⟨t, ht⟩ := (occursAt_iff s p i).mp h
  have hlen : s.length - i = p.length + t.length := by
    have := congrArg List.length ht
    simpa using this
  have hp0 : p.length ≠ 0 := by
    intro h0
    exact hp (List.length_eq_zero.mp h0)
  omega

theorem occursAt_getElem {s p : List Char} {i : Nat} (h : occursAt s p i) :
    ∀ k, k < p.length → s[i + k]? = p[k]? := by
  intro k hk
  obtain ⟨t, ht⟩ := (occursAt_iff s p i).mp h
  calc s[i + k]? = (s.drop i)[k]? := (List.getElem?_drop s i k).symm
    _ = (p ++ t)[k]? := by rw [ht]
    _ = p[k]? := List.getElem?_append_left hk

theorem occursAt_append_ext {x p : List Char} {j : Nat} (y : List Char) (h : occursAt x p j) :
    occursAt (x ++ y) p j := by
  obtain ⟨t, ht⟩ := (occursAt_iff x p j).mp h
  refine (occursAt_iff _ p j).mpr ⟨t ++ y.drop (j - x.length), ?_⟩
  rw [List.drop_append_eq_append_drop, ht, List.append_assoc]

theorem occursAt_append_left {x y p : List Char} {j : Nat} (h : occursAt (x ++ y) p j)
    (hj : j + p.length ≤ x.length) : occursAt x p j := by
  obtain ⟨t, ht⟩ := (occursAt_iff _ p j).mp h
  rw [List.drop_append_eq_append_drop] at ht
  have hx : j - x.length = 0 := by omega
  rw [hx, List.drop_zero] at ht
  have hdlen : p.length ≤ (x.drop j).length := by
    rw [List.length_drop]; omega
  have h1 : p = (x.drop j).take p.length := by
    have h2 := congrArg (List.take p.length) ht
    rw [List.take_append_eq_append_take] at h2
    have h3 : p.length - (x.drop j).length = 0 := by omega
    rw [h3, List.take_zero, List.append_nil] at h2
    have h4 : (p ++ t).take p.length = p := List.take_left p t
    rw [h4] at h2
    exact h2.symm
  refine (occursAt_iff x p j).mpr ⟨(x.drop j).drop p.length, ?_⟩
  conv_lhs => rw [← List.take_append_drop p.length (x.drop j)]
  rw [← h1]

theorem occursAt_append_shift {y p : List Char} {j : Nat} (x : List Char) (h : occursAt y p j) :
    occursAt (x ++ y) p (x.length + j) := by
  obtain ⟨t, ht⟩ := (occursAt_iff y p j).mp h
  refine (occursAt_iff _ p _).mpr ⟨t, ?_⟩
  rw [List.drop_append_eq_append_drop]
  have h1 : x.drop (x.length + j) = [] := by
    apply List.drop_eq_nil_of_le; omega
  have h2 : x.length + j - x.length = j := by omega
  rw [h1, h2, List.nil_append, ht]

theorem occursAt_of_append_ge {x y p : List Char} {j : Nat} (h : occursAt (x ++ y) p j)
    (hj : x.length ≤ j) : occursAt y p (j - x.length) := by
  obtain ⟨t, ht⟩ := (occursAt_iff _ p j).mp h
  rw [List.drop_append_eq_append_drop] at ht
  have h1 : x.drop j = [] := List.drop_eq_nil_of_le hj
  rw [h1, List.nil_append] at ht
  exact (occursAt_iff y p _).mpr ⟨t, ht⟩

theorem occursAt_of_take {l p : List Char} {n j : Nat} (h : occursAt (l.take n) p j) :
    occursAt l p j := by
  have := occursAt_append_ext (l.drop n) h
  rwa [List.take_append_drop] at this

theorem no_occurs_of_short {s p : List Char} (hp : p ≠ []) (h : s.length < p.length) :
    ∀ j, ¬ occursAt s p j := by
  intro j hocc
  have := occursAt_bound hp hocc
  omega

theorem findSubAux_eq_some_iff (p : List Char) :
    ∀ (s : List Char) (i j : Nat),
      findSubAux p s i = some j ↔
        ∃ d, j = i + d ∧ occursAt s p d ∧ ∀ k, k < d → ¬ occursAt s p k := by
  intro s
  induction s with
  | nil =>
    intro i j
    by_cases h : startsWith p [] = true
    · have hocc : ∀ d, occursAt ([] : List Char) p d := by
        intro d; unfold occursAt; simpa using h
      simp only [findSubAux]
      rw [if_pos h]
      simp only [Option.some.injEq]
      constructor
      · rintro rfl
        exact ⟨0, by omega, hocc 0, by omega⟩
      · rintro ⟨d, rfl, _, hmin⟩
        have hd : d = 0 := by
          by_contra hd0
          exact hmin 0 (by omega) (hocc 0)
        omega
    · have hocc : ∀ d, ¬ occursAt ([] : List Char) p d := by
        intro d hx
        unfold occursAt at hx
        simp at hx
        exact h hx
      simp only [findSubAux]
      rw [if_neg h]
      constructor
      · intro hx; cases hx
      · rintro ⟨d, _, hx, _⟩
        exact absurd hx (hocc d)
  | cons a t ih =>
    intro i j
    have hzero : occursAt (a :: t) p 0 ↔ startsWith p (a :: t) = true := by
      unfold occursAt; rw [List.drop_zero]
    have hsucc : ∀ k, occursAt (a :: t) p (k + 1) ↔ occursAt t p k := by
      intro k; unfold occursAt; rw [List.drop_succ_cons]
    by_cases h : startsWith p (a :: t) = true
    · simp only [findSubAux]
      rw [if_pos h]
      simp only [Option.some.injEq]
      constructor
      · rintro rfl
        exact ⟨0, by omega, hzero.mpr h, by omega⟩
      · rintro ⟨d, rfl, _, hmin⟩
        have hd : d = 0 := by
          by_contra hd0
          exact hmin 0 (by omega) (hzero.mpr h)
        omega
    · simp only [findSubAux]
      rw [if_neg h]
      rw [ih (i + 1) j]
      constructor
      · rintro ⟨d, rfl, hocc, hmin⟩
        refine ⟨d + 1, by omega, (hsucc d).mpr hocc, ?_⟩
        intro k hk
        cases k with
        | zero => rw [hzero]; simpa using h
        | succ m =>
          rw [hsucc m]
          exact hmin m (by omega)
      · rintro ⟨d, rfl, hocc, hmin⟩
        cases d with
        | zero =>
          rw [hzero] at hocc
          exact absurd hocc h
        | succ m =>
          refine ⟨m, by omega, (hsucc m).mp hocc, ?_⟩
          intro k hk
          have := hmin (k + 1) (by omega)
          rwa [hsucc k] at this

theorem findSubAux_eq_none_iff (p : List Char) :
    ∀ (s : List Char) (i : Nat), findSubAux p s i = none ↔ ∀ k, ¬ occursAt s p k := by
  intro s i
  rcases hfs : findSubAux p s i with _ | j
  · simp only [true_iff]
    intro k hk
    rcases Nat.lt_or_ge k (s.length + 1) with hlt | hge
    · -- a first occurrence at or before k would make findSubAux return some
      have : ∃ d, occursAt s p d ∧ ∀ m, m < d → ¬ occursAt s p m := by
        by_contra hno
        push_neg at hno
        have : ∀ d, ¬ occursAt s p d := by
          intro d
          induction d using Nat.strong_induction_on with
          | _ d ihd =>
            intro hd
            obtain ⟨m, hm1, hm2⟩ := hno d hd
            exact ihd m hm1 hm2
        exact this k hk
      obtain ⟨d, hd1, hd2⟩ := this
      have := (findSubAux_eq_some_iff p s i (i + d)).mpr ⟨d, rfl, hd1, hd2⟩
      rw [hfs] at this
      cases this
    · -- occurrences beyond the length force p = [], but then 0 also occurs
      have hp : p = [] := by
        by_contra hp
        have := occursAt_bound hp hk
        omega
      subst hp
      have h0 : occursAt s [] 0 := by
        unfold occursAt; simp [startsWith]
      have := (findSubAux_eq_some_iff [] s i i).mpr ⟨0, by omega, h0, by omega⟩
      rw [hfs] at this
      cases this
  · constructor
    · intro hx; cases hx
    · intro hall
      obtain ⟨d, _, hocc, _⟩ := (findSubAux_eq_some_iff p s i j).mp hfs
      exact (hall d hocc).elim

theorem findSub_eq_some_iff (s p : List Char) (j : Nat) :
    findSub s p = some j ↔ occursAt s p j ∧ ∀ k, k < j → ¬ occursAt s p k := by
  unfold findSub
  rw [findSubAux_eq_some_iff]
  constructor
  · rintro ⟨d, hd, h1, h2⟩
    have hjd : j = d := by omega
    subst hjd
    exact ⟨h1, h2⟩
  · rintro ⟨h1, h2⟩
    exact ⟨j, by omega, h1, h2⟩

theorem findSub_eq_none_iff (s p : List Char) :
    findSub s p = none ↔ ∀ k, ¬ occursAt s p k :=
  findSubAux_eq_none_iff p s 0

/-- Maximum character limit for Well-Architected Tool notes (main.py line 52). -/
def MAX_NOTES_LENGTH : Nat := 2080

/-- Safety margin subtracted from the limit (main.py line 54). -/
def NOTES_SAFETY_MARGIN : Nat := 30

/-- A single newline, as spliced between markers and content. -/
def nlc : List Char := ['\n']

/-- The generic part of the start marker searched for by
`current_notes.find("<!-- WA-")` (main.py line 283). -/
def startMark : List Char := ("<!-- WA-").data

/-- The closing ` -->` of a marker. -/
def markClose : List Char := [' ', '-', '-', '>']

/-- The literal end marker `<!-- /WA -->` (main.py line 280). -/
def end_marker : List Char := ("<!-- /WA").data ++ markClose

/-- The timestamped start marker `<!-- WA-{timestamp} -->` (main.py line 279). -/
def start_marker (ts : List Char) : List Char := startMark ++ ts ++ markClose

/-- The fixed truncation message (main.py lines 322, 326, 330). -/
def truncMsg : List Char := ("[Content truncated due to size limits]").data

/-- `f"{start_marker}\n{consolidated_notes}\n{end_marker}"` (main.py line 287). -/
def new_section (ts content : List Char) : List Char :=
  start_marker ts ++ nlc ++ content ++ nlc ++ end_marker

/-- The append branch (main.py lines 295-297): a blank-line separator when the
current notes are non-empty, none when they are empty. -/
def append_section (current content ts : List Char) : List Char :=
  current ++ (if current.isEmpty then [] else nlc ++ nlc) ++ new_section ts content

/-- The replace-or-append splice, main.py lines 282-297 of
`update_wellarchitected_notes`: replace when the start-marker prefix and the
end marker are both found with the end after the start, else append. -/
def splice (current content ts : List Char) : List Char :=
  match findSub current startMark, findSub current end_marker with
  | some s, some e =>
    if s < e then
      current.take s ++ new_section ts content ++ current.drop (e + end_marker.length)
    else append_section current content ts
  | _, _ => append_section current content ts

/-- Python slice `l[:k]` where `k` may be a negative int. -/
def pyTake (l : List Char) (k : Int) : List Char :=
  if 0 ≤ k then l.take k.toNat else l.take (l.length - (-k).toNat)

/-- `safe_length` of main.py line 309. -/
def safe_length (ts : List Char) : Int :=
  (MAX_NOTES_LENGTH : Int) - (start_marker ts).length - end_marker.length - 100

/-- The no-marker truncation branch, main.py lines 329-330. -/
def truncated_append (current ts : List Char) : List Char :=
  (if current.isEmpty then [] else pyTake current (safe_length ts)) ++
    nlc ++ start_marker ts ++ nlc ++ truncMsg ++ nlc ++ end_marker

/-- `available_space` of main.py line 317, for the region split at the found
marker indices `s` and `e`. -/
def available_space (current ts : List Char) (s e : Nat) : Int :=
  (MAX_NOTES_LENGTH : Int) - NOTES_SAFETY_MARGIN - (current.take s).length -
    (current.drop (e + end_marker.length)).length - (start_marker ts).length -
    end_marker.length

/-- The over-budget branch of `update_wellarchitected_notes`, main.py
lines 308-330: truncate the new section between the preserved before/after
regions when markers exist, else truncate the notes and append a placeholder. -/
def truncated_update (current content ts : List Char) : List Char :=
  match findSub current startMark, findSub current end_marker with
  | some s, some e =>
    if s < e then
      if 100 < available_space current ts s e then
        current.take s ++ start_marker ts ++ nlc ++
          (pyTake content (available_space current ts s e - 50) ++ nlc ++ truncMsg) ++
          nlc ++ end_marker ++ current.drop (e + end_marker.length)
      else
        current.take s ++ start_marker ts ++ nlc ++ truncMsg ++ nlc ++ end_marker ++
          current.drop (e + end_marker.length)
    else truncated_append current ts
  | _, _ => truncated_append current ts

/-- The pure core of `update_wellarchitected_notes` (main.py lines 273-338):
the notes text passed to `update_answer`, as a function of the current notes,
the consolidated content and the timestamp.  The nested duplicate length check
of lines 300 and 307 is kept as in the source. -/
def update_notes (current content ts : List Char) : List Char :=
  if MAX_NOTES_LENGTH - NOTES_SAFETY_MARGIN < (splice current content ts).length then
    if MAX_NOTES_LENGTH - NOTES_SAFETY_MARGIN < (splice current content ts).length then
      truncated_update current content ts
    else splice current content ts
  else splice current content ts

/-- The estimate computed by `process_conformance_pack` (main.py line 548). -/
def estimated_length (current detailed ts : List Char) : Nat :=
  current.length + detailed.length + (start_marker ts).length + end_marker.length + 20

/-- `process_conformance_pack` keeps the detailed render exactly when the
estimate does not exceed the effective budget (main.py line 551). -/
def use_detailed (current detailed ts : List Char) : Prop :=
  ¬ (MAX_NOTES_LENGTH - NOTES_SAFETY_MARGIN < estimated_length current detailed ts)

instance (current detailed ts : List Char) : Decidable (use_detailed current detailed ts) := by
  unfold use_detailed; infer_instance

/-- One AWS Config evaluation result, reduced to the fields the renderer reads. -/
structure EvalResult where
  resource_type : List Char
  resource_id : List Char
  compliance : List Char
deriving DecidableEq

def COMPLIANT : List Char := ("COMPLIANT").data

def NON_COMPLIANT : List Char := ("NON_COMPLIANT").data

/-- `f"{resource_type}: {resource_id}"` (main.py line 512). -/
def resource_info (r : EvalResult) : List Char :=
  r.resource_type ++ (": ").data ++ r.resource_id

/-- The detailed per-rule render of `process_conformance_pack`
(main.py lines 496-528): rules with no evaluations are skipped, non-compliant
resources are listed individually, compliant resources appear only as a count. -/
def detailed_notes_for_rule (rule_name : List Char) (evals : List EvalResult) : List Char :=
  if evals.isEmpty then [] else
    ("**").data ++ rule_name ++ ("**\n").data ++
      (if ((evals.filter (fun r => r.compliance == NON_COMPLIANT)).map resource_info).isEmpty
        then [] else
        ("[!] Non-compliant:\n").data ++
          (((evals.filter (fun r => r.compliance == NON_COMPLIANT)).map resource_info).map
            (fun i => ("- ").data ++ i ++ nlc)).flatten ++ nlc) ++
      (if ((evals.filter (fun r => r.compliance == COMPLIANT)).map resource_info).isEmpty
        then [] else
        ("[+] ").data ++
          (Nat.repr ((evals.filter (fun r => r.compliance == COMPLIANT)).map
            resource_info).length).data ++
          (" compliant resources\n\n").data)

/-- `get_rule_details` (main.py lines 245-256, collect_compliance_data.py
lines 130-141): a single `get_compliance_details_by_config_rule` call with
`Limit=100` and no `NextToken` loop, so only the service's first page of
evaluation results is returned.  The paginated service is modelled as its
list of pages in order. -/
def get_rule_details (pages : List (List EvalResult)) : List EvalResult :=
  match pages with
  | [] => []
  | p :: _ => p

/-- Spec-side: the complete paginated sequence of evaluation results, i.e. the
result of following continuation tokens to exhaustion. -/
def spec_all_pages (pages : List (List EvalResult)) : List EvalResult :=
  match pages with
  | [] => []
  | p :: ps => p ++ spec_all_pages ps

/-- `[A-Za-z]` of the question-number pattern. -/
def chAlpha (c : Char) : Bool := ('A' ≤ c && c ≤ 'Z') || ('a' ≤ c && c ≤ 'z')

/-- `[0-9]` of the question-number pattern. -/
def chDigit (c : Char) : Bool := '0' ≤ c && c ≤ '9'

/-- The regex `([A-Za-z]{3,4}[0-9]{2})` matched at the current position:
the greedy 4-letter alternative first, then 3 letters
(extract_question_id, wa_report_generator/main.py lines 135-141). -/
def matchTokenAt : List Char → Option (List Char)
  | a :: b :: c :: d :: e :: f :: _ =>
    if chAlpha a && chAlpha b && chAlpha c && chAlpha d && chDigit e && chDigit f then
      some [a, b, c, d, e, f]
    else if chAlpha a && chAlpha b && chAlpha c && chDigit d && chDigit e then
      some [a, b, c, d, e]
    else none
  | [a, b, c, d, e] =>
    if chAlpha a && chAlpha b && chAlpha c && chDigit d && chDigit e then
      some [a, b, c, d, e]
    else none
  | _ => none

/-- `re.search`: leftmost position at which the pattern matches. -/
def searchToken : List Char → Option (List Char)
  | [] => none
  | a :: t =>
    match matchTokenAt (a :: t) with
    | some m => some m
    | none => searchToken t

/-- `extract_question_id` (wa_report_generator/main.py lines 132-166), first
component: the uppercased question number, `None` when no pattern matches. -/
def extract_question_id (rule_name : List Char) : Option (List Char) :=
  (searchToken rule_name).map (fun l => l.map Char.toUpper)

/-- Spec-side: `w` is a word matching `[A-Za-z]{3,4}[0-9]{2}`. -/
def isToken (w : List Char) : Bool :=
  (w.length == 5 || w.length == 6) &&
    (w.take (w.length - 2)).all chAlpha && (w.drop (w.length - 2)).all chDigit

/-- Spec-side: the rule name `s` contains, at index `i`, a substring `w`
matching the question-number pattern. -/
def tokenAt (s : List Char) (i : Nat) (w : List Char) : Prop :=
  isToken w = true ∧ occursAt s w i

instance (s : List Char) (i : Nat) (w : List Char) : Decidable (tokenAt s i w) := by
  unfold tokenAt; infer_instance

/-- The part of the lambda response the claims are about. -/
structure LambdaResponse where
  statusCode : Nat
  status : List Char
deriving DecidableEq

/-- The outcome of `update_wellarchitected_notes` as seen by its caller
(main.py lines 258-344): `True` under dry-run, else success of the
`update_answer` call; a `ClientError` makes it return `False`.  Whether each
write succeeds is supplied by the `writeOk` oracle. -/
def update_notes_outcome (dry_run writeOk : Bool) : Bool :=
  if dry_run then true else writeOk

/-- `process_conformance_pack` (main.py lines 404-563): the per-question write
outcomes.  The function computes them and discards them (it returns `None`). -/
def process_pack_outcomes (questions : List (List Char)) (dry_run : Bool)
    (writeOk : List Char → Bool) : List Bool :=
  questions.map (fun q => update_notes_outcome dry_run (writeOk q))

/-- `clean_all_notes` (main.py lines 346-402): success only when every
per-question update reports success. -/
def clean_all_notes (questions : List (List Char)) (dry_run : Bool)
    (writeOk : List Char → Bool) : Bool :=
  (process_pack_outcomes questions dry_run writeOk).all (fun b => b)

/-- `lambda_handler` (main.py lines 565-626): the response status as a function
of the event parameters and the write outcomes. -/
def lambda_handler (workload_id : Option (List Char)) (dry_run clean_notes : Bool)
    (questions : List (List Char)) (writeOk : List Char → Bool) : LambdaResponse :=
  match workload_id with
  | none => ⟨400, ("error").data⟩
  | some _ =>
    if clean_notes && !(clean_all_notes questions dry_run writeOk) then
      ⟨500, ("error").data⟩
    else
      let _ := process_pack_outcomes questions dry_run writeOk
      ⟨200, ("success").data⟩

theorem startMark_length : startMark.length = 8 := rfl

theorem end_marker_length : end_marker.length = 12 := rfl

theorem markClose_length : markClose.length = 4 := rfl

theorem nlc_length : nlc.length = 1 := rfl

theorem truncMsg_length : truncMsg.length = 38 := rfl

theorem start_marker_length (ts : List Char) : (start_marker ts).length = ts.length + 12 := by
  simp [start_marker, List.length_append, startMark_length, markClose_length]
  omega

theorem new_section_length (ts content : List Char) :
    (new_section ts content).length = ts.length + content.length + 26 := by
  simp [new_section, List.length_append, start_marker_length, end_marker_length, nlc_length]
  omega

theorem pyTake_length_le (l : List Char) (k : Int) : (pyTake l k).length ≤ l.length := by
  unfold pyTake
  split <;> simp [List.length_take]

theorem pyTake_length_le_toNat (l : List Char) (k : Int) (hk : 0 ≤ k) :
    (pyTake l k).length ≤ k.toNat := by
  unfold pyTake
  rw [if_pos hk]
  simp [List.length_take]

theorem splice_no_marks (current content ts : List Char)
    (h1 : findSub current startMark = none) (h2 : findSub current end_marker = none) :
    splice current content ts = append_section current content ts := by
  unfold splice
  rw [h1, h2]

theorem splice_replace (current content ts : List Char) {s e : Nat}
    (h1 : findSub current startMark = some s) (h2 : findSub current end_marker = some e)
    (hse : s < e) :
    splice current content ts =
      current.take s ++ new_section ts content ++ current.drop (e + end_marker.length) := by
  unfold splice
  rw [h1, h2]
  exact if_pos hse

theorem splice_stray (current content ts : List Char) {e : Nat}
    (h2 : findSub current end_marker = some e)
    (h1 : ∀ s, findSub current startMark = some s → e ≤ s) :
    splice current content ts = append_section current content ts := by
  unfold splice
  rcases hfs : findSub current startMark with _ | s
  · rw [h2]
  · rw [h2]
    exact if_neg (Nat.not_lt.mpr (h1 s hfs))

theorem append_section_length (current content ts : List Char)
    (h : current.isEmpty = false) :
    (append_section current content ts).length =
      current.length + content.length + ts.length + 28 := by
  simp [append_section, h, new_section_length, List.length_append, nlc_length]
  omega

theorem isEmpty_congr {α β : Type} (l1 : List α) (l2 : List β) (h : l1.length = l2.length) :
    l1.isEmpty = l2.isEmpty := by
  cases l1 <;> cases l2 <;> simp_all

/-- Claim C8: when neither marker is found in the current notes, the splice
appends `start_marker + newline + content + newline + end_marker` after the
existing content, separated by exactly one blank line when the existing content
is non-empty and with no separator when it is empty. -/
theorem splice_appends_fresh_section (notes A ts : List Char)
    (h1 : findSub notes startMark = none) (h2 : findSub notes end_marker = none) :
    splice notes A ts =
      notes ++ (if notes.isEmpty then [] else nlc ++ nlc) ++
        (start_marker ts ++ nlc ++ A ++ nlc ++ end_marker) := by
  rw [splice_no_marks notes A ts h1 h2]
  rfl

/-- Witness for C8, the spec's example scenario 2:
`splice("user text", "new content", "<!-- WA-X -->", "<!-- /WA -->")` equals
`"user text\n\n<!-- WA-X -->\nnew content\n<!-- /WA -->"`. -/
theorem splice_appends_fresh_section_witness :
    splice (("user text").data) (("new content").data) (("X").data) =
      ("user text\n\n<!-- WA-X").data ++ markClose ++
        ("\nnew content\n<!-- /WA").data ++ markClose := by
  rw [splice_appends_fresh_section (("user text").data) (("new content").data) (("X").data)
    (by decide) (by decide)]
  decide

/-- Claim C10: for every invocation with a workload id and `clean_notes` unset,
the handler answers 200/'success' for every possible combination of
per-question write outcomes: `process_conformance_pack` discards the results of
`update_wellarchitected_notes`, so write failures never reach the response. -/
theorem lambda_handler_success_ignores_write_failures
    (wid : List Char) (dry_run : Bool) (questions : List (List Char))
    (writeOk : List Char → Bool) :
    lambda_handler (some wid) dry_run false questions writeOk =
      ⟨200, ("success").data⟩ := by
  rfl

def evA : EvalResult := ⟨("T1").data, ("a").data, COMPLIANT⟩

def evB : EvalResult := ⟨("T2").data, ("b").data, NON_COMPLIANT⟩

/-- Claim C6 (code bug witness): with the service holding two pages of
evaluation results, `get_rule_details` returns only the first page and not the
complete paginated sequence. -/
theorem get_rule_details_first_page_only :
    get_rule_details [[evA], [evB]] = [evA] ∧
      get_rule_details [[evA], [evB]] ≠ spec_all_pages [[evA], [evB]] := by
  constructor
  · rfl
  · decide

def ts19 : List Char := ("2026-10-12 00:00:00").data

theorem ts19_length : ts19.length = 19 := rfl

/-- Claim C4 (amended): the detailed/summarized decision of
`process_conformance_pack` compares the padded estimate (current + render +
markers + 20) against the effective budget; for marker-free non-empty existing
notes this is equivalent to testing the true spliced total against the budget
minus a 16-character over-estimate, not against the budget itself. -/
theorem use_detailed_iff_spliced_length (current detailed ts : List Char)
    (hts : ts.length = 19)
    (h1 : findSub current startMark = none) (h2 : findSub current end_marker = none)
    (hne : current.isEmpty = false) :
    use_detailed current detailed ts ↔ (splice current detailed ts).length + 16 ≤ 2050 := by
  rw [splice_no_marks current detailed ts h1 h2]
  rw [append_section_length current detailed ts hne]
  unfold use_detailed estimated_length MAX_NOTES_LENGTH NOTES_SAFETY_MARGIN
  rw [start_marker_length, end_marker_length, hts]
  omega

/-- Witness for the amended C4 at a concrete input. -/
theorem use_detailed_iff_spliced_length_witness :
    use_detailed (("user").data) (("x").data) ts19 ↔
      (splice (("user").data) (("x").data) ts19).length + 16 ≤ 2050 :=
  use_detailed_iff_spliced_length (("user").data) (("x").data) ts19
    (by decide) (by decide) (by decide) (by decide)

/-- Claim C4 counterexample: a detailed render whose true spliced total (2045)
fits the 2050 budget, yet the estimate (2063) exceeds it, so the code falls
back to the summarized render although the detailed one would fit. -/
theorem use_detailed_not_exact_cex :
    ¬ use_detailed [] (List.replicate 2000 'x') ts19 ∧
      (splice [] (List.replicate 2000 'x') ts19).length ≤ 2050 := by
  constructor
  · intro h
    apply h
    unfold estimated_length
    rw [start_marker_length, end_marker_length, ts19_length]
    simp only [List.length_nil, List.length_replicate]
    decide
  · rw [splice_no_marks _ _ _ (by rfl) (by rfl)]
    unfold append_section
    simp only [List.isEmpty_nil, if_true, List.length_append, List.length_nil,
      new_section_length, List.length_replicate, ts19_length]
    omega

/-- Claim C5 (amended): in the detailed render, compliant resources influence
the output only through their count — for any two evaluation lists with equal
emptiness, identical non-compliant entries and equally many compliant entries,
the render is identical, so individual compliant resources are never listed,
whatever the count. -/
theorem detailed_render_depends_only_on_compliant_count
    (name : List Char) (evals evals2 : List EvalResult)
    (hempty : evals.isEmpty = evals2.isEmpty)
    (hnc : evals.filter (fun r => r.compliance == NON_COMPLIANT) =
      evals2.filter (fun r => r.compliance == NON_COMPLIANT))
    (hc : (evals.filter (fun r => r.compliance == COMPLIANT)).length =
      (evals2.filter (fun r => r.compliance == COMPLIANT)).length) :
    detailed_notes_for_rule name evals = detailed_notes_for_rule name evals2 := by
  have hlen : ((evals.filter (fun r => r.compliance == COMPLIANT)).map resource_info).length =
      ((evals2.filter (fun r => r.compliance == COMPLIANT)).map resource_info).length := by
    rw [List.length_map, List.length_map, hc]
  have hemp : ((evals.filter (fun r => r.compliance == COMPLIANT)).map resource_info).isEmpty =
      ((evals2.filter (fun r => r.compliance == COMPLIANT)).map resource_info).isEmpty :=
    isEmpty_congr _ _ hlen
  unfold detailed_notes_for_rule
  rw [hempty, hnc, hemp, hlen]

def evC1 : EvalResult := ⟨("AWS::S3::Bucket").data, ("b1").data, COMPLIANT⟩

def evC2 : EvalResult := ⟨("AWS::EC2::Instance").data, ("i9").data, COMPLIANT⟩

/-- Witness for the amended C5: two different single compliant resources give
the identical render. -/
theorem detailed_render_compliant_count_witness :
    detailed_notes_for_rule (("r").data) [evC1] =
      detailed_notes_for_rule (("r").data) [evC2] :=
  detailed_render_depends_only_on_compliant_count (("r").data) [evC1] [evC2]
    (by decide) (by decide) (by decide)

/-- Claim C5 counterexample: a rule with a single compliant resource
(count 1 ≤ threshold 10).  The claim says it is listed individually as
`type: id`; the render instead contains only the count line and the
`AWS::S3::Bucket: b1` entry appears nowhere in it. -/
theorem truncated_update_found (current content ts : List Char) {s e : Nat}
    (h1 : findSub current startMark = some s) (h2 : findSub current end_marker = some e) :
    truncated_update current content ts =
      (if s < e then
        if 100 < available_space current ts s e then
          current.take s ++ start_marker ts ++ nlc ++
            (pyTake content (available_space current ts s e - 50) ++ nlc ++ truncMsg) ++
            nlc ++ end_marker ++ current.drop (e + end_marker.length)
        else
          current.take s ++ start_marker ts ++ nlc ++ truncMsg ++ nlc ++ end_marker ++
            current.drop (e + end_marker.length)
      else truncated_append current ts) := by
  unfold truncated_update
  rw [h1, h2]

theorem truncated_update_not_found (current content ts : List Char)
    (h : findSub current startMark = none ∨ findSub current end_marker = none) :
    truncated_update current content ts = truncated_append current ts := by
  unfold truncated_update
  rcases h with h | h
  · rw [h]
  · rw [h]
    rcases hx : findSub current startMark with _ | s <;> rfl

theorem truncated_append_length_le (current ts : List Char) (hts : ts.length = 19) :
    (truncated_append current ts).length ≤ 2021 := by
  unfold truncated_append
  have hsl : safe_length ts = 1937 := by
    unfold safe_length
    rw [start_marker_length, end_marker_length, hts]
    unfold MAX_NOTES_LENGTH
    omega
  have h1 : (if current.isEmpty then ([] : List Char)
      else pyTake current (safe_length ts)).length ≤ 1937 := by
    split
    · simp
    · have h0 : (0 : Int) ≤ safe_length ts := by rw [hsl]; omega
      have h2 := pyTake_length_le_toNat current (safe_length ts) h0
      have h3 : (safe_length ts).toNat = 1937 := by rw [hsl]; rfl
      omega
  simp only [List.length_append, start_marker_length, end_marker_length, nlc_length,
    truncMsg_length, hts]
  omega

/-- Claim C2: whenever the current notes contain the start-marker prefix and
the literal end marker with the end strictly after the start, the updated
notes keep the text strictly outside the marker span byte-identical in every
branch, including both over-budget truncation branches. -/
theorem update_notes_frame_outside_markers
    (current content ts : List Char) (s e : Nat)
    (h1 : findSub current startMark = some s) (h2 : findSub current end_marker = some e)
    (hse : s < e) :
    ∃ mid, update_notes current content ts =
      current.take s ++ mid ++ current.drop (e + end_marker.length) := by
  have hsp := splice_replace current content ts h1 h2 hse
  have htr := truncated_update_found current content ts h1 h2
  unfold update_notes
  rw [hsp, htr, if_pos hse]
  by_cases hlen : MAX_NOTES_LENGTH - NOTES_SAFETY_MARGIN <
      (current.take s ++ new_section ts content ++
        current.drop (e + end_marker.length)).length
  · rw [if_pos hlen, if_pos hlen]
    by_cases hav : 100 < available_space current ts s e
    · rw [if_pos hav]
      refine ⟨start_marker ts ++ nlc ++
        (pyTake content (available_space current ts s e - 50) ++ nlc ++ truncMsg) ++
        nlc ++ end_marker, ?_⟩
      simp [List.append_assoc]
    · rw [if_neg hav]
      refine ⟨start_marker ts ++ nlc ++ truncMsg ++ nlc ++ end_marker, ?_⟩
      simp [List.append_assoc]
  · rw [if_neg hlen]
    exact ⟨new_section ts content, rfl⟩

def curC2 : List Char :=
  ("A<!-- WA-old").data ++ markClose ++ ("mid<!-- /WA").data ++ markClose ++ ("B").data

/-- Witness for C2 at concrete notes containing a marked section. -/
theorem update_notes_frame_outside_markers_witness :
    ∃ mid, update_notes curC2 (("new").data) ts19 =
      curC2.take 1 ++ mid ++ curC2.drop (19 + end_marker.length) :=
  update_notes_frame_outside_markers curC2 (("new").data) ts19 1 19
    (by decide) (by decide) (by decide)

/-- Claim C1 (amended): the final notes text never exceeds the effective
budget of 2050 characters provided that, whenever an existing marked section
is being replaced, the text outside the marker span totals at most 1967
characters.  (Without that proviso the replace-branch placeholder case can
exceed the budget, see the counterexample.) -/
theorem update_notes_length_le_budget (current content ts : List Char)
    (hts : ts.length = 19)
    (hout : ∀ s e, findSub current startMark = some s →
      findSub current end_marker = some e → s < e →
      s + (current.length - (e + end_marker.length)) ≤ 1967) :
    (update_notes current content ts).length ≤ 2050 := by
  unfold update_notes
  by_cases hlen : MAX_NOTES_LENGTH - NOTES_SAFETY_MARGIN < (splice current content ts).length
  case neg =>
    rw [if_neg hlen]
    unfold MAX_NOTES_LENGTH NOTES_SAFETY_MARGIN at hlen
    omega
  case pos =>
    rw [if_pos hlen, if_pos hlen]
    rcases h1 : findSub current startMark with _ | s
    · rw [truncated_update_not_found current content ts (Or.inl h1)]
      have := truncated_append_length_le current ts hts
      omega
    rcases h2 : findSub current end_marker with _ | e
    · rw [truncated_update_not_found current content ts (Or.inr h2)]
      have := truncated_append_length_le current ts hts
      omega
    by_cases hse : s < e
    · rw [truncated_update_found current content ts h1 h2, if_pos hse]
      have hbs : s + 8 ≤ current.length := by
        have := occursAt_bound (p := startMark) (by decide)
          ((findSub_eq_some_iff current startMark s).mp h1).1
        simpa [startMark_length] using this
      have htk : (current.take s).length = s := by
        rw [List.length_take]; omega
      have hem : end_marker.length = 12 := end_marker_length
      have hsm : (start_marker ts).length = 31 := by rw [start_marker_length, hts]
      have hnl : nlc.length = 1 := nlc_length
      have htm : truncMsg.length = 38 := truncMsg_length
      have hM : MAX_NOTES_LENGTH = 2080 := rfl
      have hmar : NOTES_SAFETY_MARGIN = 30 := rfl
      have hdr : (current.drop (e + end_marker.length)).length =
          current.length - (e + 12) := by
        rw [List.length_drop, end_marker_length]
      have hout2 := hout s e h1 h2 hse
      have hav2 : available_space current ts s e =
          2050 - (s : Int) - ((current.length - (e + 12) : Nat) : Int) - 43 := by
        unfold available_space
        rw [htk, hdr, hsm, hem, hM, hmar]
        omega
      by_cases hav : 100 < available_space current ts s e
      · rw [if_pos hav]
        have hav50 : (0 : Int) ≤ available_space current ts s e - 50 := by omega
        have hpt := pyTake_length_le_toNat content
          (available_space current ts s e - 50) hav50
        simp only [List.length_append]
        omega
      · rw [if_neg hav]
        simp only [List.length_append]
        omega
    · rw [truncated_update_found current content ts h1 h2, if_neg hse]
      have := truncated_append_length_le current ts hts
      omega

def curC1w : List Char :=
  startMark ++ ("a").data ++ markClose ++ ("<!-- /WA").data ++ markClose

/-- Witness for the amended C1 at concrete notes with a small marked section. -/
theorem update_notes_length_le_budget_witness :
    (update_notes curC1w (("hello").data) ts19).length ≤ 2050 :=
  update_notes_length_le_budget curC1w (("hello").data) ts19 (by decide)
    (by
      intro s e hs he hse
      have h1 : findSub curC1w startMark = some 0 := by decide
      have h2 : findSub curC1w end_marker = some 13 := by decide
      rw [h1] at hs
      rw [h2] at he
      injection hs with hs1
      injection he with he1
      subst hs1
      subst he1
      decide)

theorem no_occurs_in_replicate_head (z p : List Char) (c : Char) (n : Nat)
    (hp : p ≠ []) (hchar : p[0]? ≠ some c) :
    ∀ k, k < n → ¬ occursAt (List.replicate n c ++ z) p k := by
  intro k hk hocc
  have hplen : 0 < p.length := List.length_pos.mpr hp
  have h0 := occursAt_getElem hocc 0 hplen
  rw [Nat.add_zero] at h0
  rw [List.getElem?_append_left (by simpa using hk)] at h0
  rw [List.getElem?_replicate, if_pos hk] at h0
  exact hchar h0.symm

def cexC1 : List Char := List.replicate 2020 'x' ++ (startMark ++ end_marker)

/-- Claim C1 counterexample: notes whose text outside the marker span is 2020
characters.  The replace-branch placeholder case produces 2103 characters,
exceeding both the effective budget (2050) and the hard limit (2080). -/
theorem update_notes_exceeds_budget_cex :
    (update_notes cexC1 [] ts19).length = 2103 ∧
      MAX_NOTES_LENGTH < (update_notes cexC1 [] ts19).length := by
  have hc : cexC1 = List.replicate 2020 'x' ++ (startMark ++ end_marker) := rfl
  have hlen40 : cexC1.length = 2040 := by
    rw [hc]
    simp only [List.length_append, List.length_replicate, startMark_length, end_marker_length]
  have h1 : findSub cexC1 startMark = some 2020 := by
    rw [findSub_eq_some_iff]
    constructor
    · have h0 : occursAt (startMark ++ end_marker) startMark 0 := by decide
      have hsh := occursAt_append_shift (List.replicate 2020 'x') h0
      rw [hc]
      simpa only [List.length_replicate, Nat.add_zero] using hsh
    · intro k hk
      rw [hc]
      exact no_occurs_in_replicate_head (startMark ++ end_marker) startMark 'x' 2020
        (by decide) (by decide) k hk
  have h2 : findSub cexC1 end_marker = some 2028 := by
    rw [findSub_eq_some_iff]
    constructor
    · have h0 : occursAt (startMark ++ end_marker) end_marker 8 := by decide
      have hsh := occursAt_append_shift (List.replicate 2020 'x') h0
      rw [hc]
      simpa only [List.length_replicate] using hsh
    · intro k hk
      rw [hc]
      by_cases hk2 : k < 2020
      · exact no_occurs_in_replicate_head (startMark ++ end_marker) end_marker 'x' 2020
          (by decide) (by decide) k hk2
      · intro hocc
        have hge : (List.replicate 2020 'x').length ≤ k := by
          simp only [List.length_replicate]; omega
        have h3 := occursAt_of_append_ge hocc hge
        have h4 : ∀ j, j < 8 → ¬ occursAt (startMark ++ end_marker) end_marker j := by decide
        refine h4 (k - (List.replicate 2020 'x').length) ?_ h3
        simp only [List.length_replicate]
        omega
  have hsp := splice_replace cexC1 [] ts19 h1 h2 (by omega)
  have hsplen : (splice cexC1 [] ts19).length = 2065 := by
    rw [hsp]
    simp only [List.length_append, List.length_take, List.length_drop, hlen40,
      new_section_length, end_marker_length, ts19_length, List.length_nil]
    omega
  have hcond : MAX_NOTES_LENGTH - NOTES_SAFETY_MARGIN < (splice cexC1 [] ts19).length := by
    rw [hsplen]; decide
  have htk : (cexC1.take 2020).length = 2020 := by
    rw [List.length_take]; omega
  have hdr : (cexC1.drop (2028 + end_marker.length)).length = 0 := by
    rw [List.length_drop, end_marker_length, hlen40]
  have hav : available_space cexC1 ts19 2020 2028 = -13 := by
    unfold available_space
    rw [htk, hdr, start_marker_length, end_marker_length, ts19_length]
    unfold MAX_NOTES_LENGTH NOTES_SAFETY_MARGIN
    norm_num
  have htr := truncated_update_found cexC1 [] ts19 h1 h2
  have heq : update_notes cexC1 [] ts19 =
      cexC1.take 2020 ++ start_marker ts19 ++ nlc ++ truncMsg ++ nlc ++ end_marker ++
        cexC1.drop (2028 + end_marker.length) := by
    unfold update_notes
    rw [if_pos hcond, if_pos hcond, htr, if_pos (by omega : (2020 : Nat) < 2028),
      if_neg (by rw [hav]; decide)]
  have hfinal : (update_notes cexC1 [] ts19).length = 2103 := by
    rw [heq]
    simp only [List.length_append, List.length_drop, htk, hlen40, start_marker_length,
      end_marker_length, nlc_length, truncMsg_length, ts19_length]
  refine ⟨hfinal, ?_⟩
  rw [hfinal]
  decide

theorem detailed_render_compliant_count_cex :
    detailed_notes_for_rule (("r").data) [evC1] =
      ("**r**\n[+] 1 compliant resources\n\n").data ∧
      findSub (detailed_notes_for_rule (("r").data) [evC1])
        (("AWS::S3::Bucket: b1").data) = none := by
  constructor
  · decide
  · decide

/-- Claim C9: when the literal end marker occurs in the current notes but not
strictly after the first occurrence of the start-marker prefix (or the prefix
is absent), nothing is replaced: a whole new marked section is appended after
the existing content, the stray marker text stays in place, and the result
contains more than one end marker. -/
theorem splice_stray_end_marker_appends (notes A ts : List Char) (e : Nat)
    (h2 : findSub notes end_marker = some e)
    (h1 : ∀ s, findSub notes startMark = some s → e ≤ s) :
    splice notes A ts =
      notes ++ (if notes.isEmpty then [] else nlc ++ nlc) ++ new_section ts A ∧
      ∃ i j, i < j ∧ occursAt (splice notes A ts) end_marker i ∧
        occursAt (splice notes A ts) end_marker j := by
  have hs := splice_stray notes A ts h2 h1
  have hocc_e : occursAt notes end_marker e := ((findSub_eq_some_iff notes end_marker e).mp h2).1
  have hb := occursAt_bound (p := end_marker) (by decide) hocc_e
  refine ⟨by rw [hs]; rfl, ?_⟩
  rw [hs]
  unfold append_section
  refine ⟨e, (notes ++ (if notes.isEmpty then [] else nlc ++ nlc)).length +
    ((start_marker ts ++ nlc ++ A ++ nlc).length + 0), ?_, ?_, ?_⟩
  · simp only [List.length_append, end_marker_length] at hb ⊢
    omega
  · exact occursAt_append_ext _ (occursAt_append_ext _ hocc_e)
  · have h0 : occursAt end_marker end_marker 0 := by decide
    have hsh1 := occursAt_append_shift (start_marker ts ++ nlc ++ A ++ nlc) h0
    exact occursAt_append_shift (notes ++ (if notes.isEmpty then [] else nlc ++ nlc)) hsh1

def notesC9 : List Char := ("b<!-- /WA").data ++ markClose ++ ("c").data

/-- Witness for C9: notes holding a stray end marker and no start marker. -/
theorem splice_stray_end_marker_appends_witness :
    splice notesC9 (("Z").data) (("T").data) =
      notesC9 ++ (if notesC9.isEmpty then [] else nlc ++ nlc) ++
        new_section (("T").data) (("Z").data) ∧
      ∃ i j, i < j ∧ occursAt (splice notesC9 (("Z").data) (("T").data)) end_marker i ∧
        occursAt (splice notesC9 (("Z").data) (("T").data)) end_marker j :=
  splice_stray_end_marker_appends notesC9 (("Z").data) (("T").data) 1 (by decide)
    (by
      intro s hsx
      have hnone : findSub notesC9 startMark = none := by decide
      rw [hnone] at hsx
      cases hsx)

theorem new_section_eq (ts A : List Char) :
    new_section ts A =
      startMark ++ (ts ++ (markClose ++ (nlc ++ (A ++ (nlc ++ end_marker))))) := by
  simp [new_section, start_marker, List.append_assoc]

theorem new_section_getElem_zero (ts A : List Char) : (new_section ts A)[0]? = some '<' := by
  rw [new_section_eq]
  rw [List.getElem?_append_left (by rw [startMark_length]; omega)]
  decide

theorem occursAt_head_char {s p : List Char} {j : Nat} (h : occursAt s p j) (hp : 0 < p.length) :
    s[j]? = p[0]? := by
  have h2 := occursAt_getElem h 0 hp
  rwa [Nat.add_zero] at h2

theorem findSub_startMark_at (b a ts A : List Char)
    (hb : ∀ j, ¬ occursAt b startMark j) :
    findSub (b ++ (new_section ts A ++ a)) startMark = some b.length := by
  rw [findSub_eq_some_iff]
  constructor
  · have hocc0 : occursAt (new_section ts A ++ a) startMark 0 := by
      rw [occursAt_iff, List.drop_zero, new_section_eq, List.append_assoc]
      exact ⟨_, rfl⟩
    have h2 := occursAt_append_shift b hocc0
    simpa only [Nat.add_zero] using h2
  · intro k hk hocc
    by_cases hk8 : k + 8 ≤ b.length
    · exact hb k (occursAt_append_left hocc (by rw [startMark_length]; omega))
    · have hkk : b.length - k < startMark.length := by rw [startMark_length]; omega
      have hchar := occursAt_getElem hocc (b.length - k) hkk
      rw [show k + (b.length - k) = b.length from by omega] at hchar
      rw [List.getElem?_append_right (le_refl _)] at hchar
      rw [Nat.sub_self] at hchar
      rw [List.getElem?_append_left (by have := new_section_length ts A; omega)] at hchar
      rw [new_section_getElem_zero] at hchar
      have hnox : ∀ m, m < 8 → 0 < m → startMark[m]? ≠ some '<' := by decide
      exact hnox (b.length - k) (by omega) (by omega) hchar.symm

theorem no_em_in_section_front (ts A : List Char) (hts : '<' ∉ ts)
    (hA : ∀ j, ¬ occursAt A end_marker j) :
    ∀ j, j < ts.length + 14 + A.length → ¬ occursAt (new_section ts A) end_marker j := by
  intro j hj hocc
  rw [new_section_eq] at hocc
  have hemlen : (0 : Nat) < end_marker.length := by rw [end_marker_length]; omega
  by_cases hj0 : j = 0
  · subst hj0
    have h5 := occursAt_getElem hocc 5 (by rw [end_marker_length]; omega)
    rw [Nat.zero_add] at h5
    rw [List.getElem?_append_left (by rw [startMark_length]; omega)] at h5
    revert h5
    decide
  by_cases hj8 : j < 8
  · have h0 := occursAt_head_char hocc hemlen
    rw [List.getElem?_append_left (by rw [startMark_length]; omega)] at h0
    have hnox : ∀ m, m < 8 → 0 < m → startMark[m]? ≠ some '<' := by decide
    exact hnox j hj8 (by omega) (by rw [h0]; rfl)
  -- peel startMark
  have hocc1 := occursAt_of_append_ge hocc (by rw [startMark_length]; omega)
  rw [startMark_length] at hocc1
  by_cases hjT : j - 8 < ts.length
  · have h0 := occursAt_head_char hocc1 hemlen
    rw [List.getElem?_append_left hjT] at h0
    have hmem : '<' ∈ ts := List.mem_iff_getElem?.mpr ⟨j - 8, by rw [h0]; rfl⟩
    exact hts hmem
  -- peel ts
  have hocc2 := occursAt_of_append_ge hocc1 (by omega)
  by_cases hjC : j - 8 - ts.length < 4
  · have h0 := occursAt_head_char hocc2 hemlen
    rw [List.getElem?_append_left (by rw [markClose_length]; omega)] at h0
    have hnoc : ∀ m, m < 4 → markClose[m]? ≠ some '<' := by decide
    exact hnoc _ hjC (by rw [h0]; rfl)
  -- peel markClose
  have hocc3 := occursAt_of_append_ge hocc2 (by rw [markClose_length]; omega)
  rw [markClose_length] at hocc3
  by_cases hjn : j - 8 - ts.length - 4 = 0
  · have h0 := occursAt_head_char hocc3 hemlen
    rw [hjn] at h0
    rw [List.getElem?_append_left (by rw [nlc_length]; omega)] at h0
    revert h0
    decide
  -- peel the newline
  have hocc4 := occursAt_of_append_ge hocc3 (by rw [nlc_length]; omega)
  rw [nlc_length] at hocc4
  -- hocc4 : occursAt (A ++ (nlc ++ end_marker)) end_marker (j - 8 - ts.length - 4 - 1)
  by_cases hin : (j - 8 - ts.length - 4 - 1) + 12 ≤ A.length
  · exact hA _ (occursAt_append_left hocc4 (by rw [end_marker_length]; omega))
  · have ha : j - 8 - ts.length - 4 - 1 ≤ A.length := by omega
    have hlt : A.length - (j - 8 - ts.length - 4 - 1) < end_marker.length := by
      rw [end_marker_length]; omega
    have hchar := occursAt_getElem hocc4 (A.length - (j - 8 - ts.length - 4 - 1)) hlt
    rw [show (j - 8 - ts.length - 4 - 1) + (A.length - (j - 8 - ts.length - 4 - 1)) = A.length
      from by omega] at hchar
    rw [List.getElem?_append_right (le_refl _)] at hchar
    rw [Nat.sub_self] at hchar
    rw [List.getElem?_append_left (by rw [nlc_length]; omega)] at hchar
    have hnon : ∀ m, m < 12 → end_marker[m]? ≠ some '\n' := by decide
    refine hnon (A.length - (j - 8 - ts.length - 4 - 1)) (by omega) ?_
    rw [← hchar]
    rfl

theorem findSub_end_marker_at (b a ts A : List Char)
    (hbE : ∀ j, ¬ occursAt b end_marker j)
    (hts : '<' ∉ ts)
    (hA : ∀ j, ¬ occursAt A end_marker j) :
    findSub (b ++ (new_section ts A ++ a)) end_marker =
      some (b.length + (ts.length + 14 + A.length)) := by
  rw [findSub_eq_some_iff]
  constructor
  · have h0 : occursAt end_marker end_marker 0 := by decide
    have hsh1 := occursAt_append_shift (start_marker ts ++ nlc ++ A ++ nlc) h0
    have hsh2 : occursAt (new_section ts A ++ a) end_marker
        ((start_marker ts ++ nlc ++ A ++ nlc).length + 0) := occursAt_append_ext a hsh1
    have hsh3 := occursAt_append_shift b hsh2
    have hidx : b.length + ((start_marker ts ++ nlc ++ A ++ nlc).length + 0) =
        b.length + (ts.length + 14 + A.length) := by
      simp only [List.length_append, start_marker_length, nlc_length, Nat.add_zero]
      omega
    rwa [hidx] at hsh3
  · intro k hk hocc
    by_cases hkb : k < b.length
    · by_cases hk12 : k + 12 ≤ b.length
      · exact hbE k (occursAt_append_left hocc (by rw [end_marker_length]; omega))
      · have hkk : b.length - k < end_marker.length := by rw [end_marker_length]; omega
        have hchar := occursAt_getElem hocc (b.length - k) hkk
        rw [show k + (b.length - k) = b.length from by omega] at hchar
        rw [List.getElem?_append_right (le_refl _)] at hchar
        rw [Nat.sub_self] at hchar
        rw [List.getElem?_append_left (by have := new_section_length ts A; omega)] at hchar
        rw [new_section_getElem_zero] at hchar
        have hnox : ∀ m, m < 12 → 0 < m → end_marker[m]? ≠ some '<' := by decide
        exact hnox (b.length - k) (by omega) (by omega) hchar.symm
    · have hocc2 := occursAt_of_append_ge hocc (by omega)
      have hlt : k - b.length < ts.length + 14 + A.length := by omega
      have hocc3 : occursAt (new_section ts A) end_marker (k - b.length) := by
        apply occursAt_append_left hocc2
        have := new_section_length ts A
        rw [end_marker_length]
        omega
      exact no_em_in_section_front ts A hts hA (k - b.length) hlt hocc3

theorem no_occurs_append_newline (notes sep p : List Char)
    (hno : ∀ j, ¬ occursAt notes p j)
    (hsep : ∀ c ∈ sep, c = '\n')
    (hnl : '\n' ∉ p) (hp : p ≠ []) :
    ∀ j, ¬ occursAt (notes ++ sep) p j := by
  intro j hocc
  have hb := occursAt_bound hp hocc
  rw [List.length_append] at hb
  have hplen : 0 < p.length := List.length_pos.mpr hp
  by_cases hj : j + p.length ≤ notes.length
  · exact hno j (occursAt_append_left hocc hj)
  · rcases le_or_lt notes.length j with hle | hlt2
    · have hchar := occursAt_head_char hocc hplen
      rw [List.getElem?_append_right hle] at hchar
      have hjlen : j - notes.length < sep.length := by omega
      obtain ⟨c, hc⟩ : ∃ c, sep[j - notes.length]? = some c :=
        ⟨_, List.getElem?_eq_getElem hjlen⟩
      rw [hc] at hchar
      have hcn : c = '\n' := hsep c (List.mem_iff_getElem?.mpr ⟨_, hc⟩)
      subst hcn
      exact hnl (List.mem_iff_getElem?.mpr ⟨0, hchar.symm⟩)
    · have hkk : notes.length - j < p.length := by omega
      have hchar := occursAt_getElem hocc (notes.length - j) hkk
      rw [show j + (notes.length - j) = notes.length from by omega] at hchar
      rw [List.getElem?_append_right (le_refl _)] at hchar
      rw [Nat.sub_self] at hchar
      have hseplen : 0 < sep.length := by omega
      obtain ⟨c, hc⟩ : ∃ c, sep[0]? = some c := ⟨_, List.getElem?_eq_getElem hseplen⟩
      rw [hc] at hchar
      have hcn : c = '\n' := hsep c (List.mem_iff_getElem?.mpr ⟨_, hc⟩)
      subst hcn
      exact hnl (List.mem_iff_getElem?.mpr ⟨_, hchar.symm⟩)

/-- Claim C3 (amended): the replace-or-append splice is idempotent provided
the current notes are well-formed — they either contain both markers with the
first end marker strictly after the first start-marker prefix, or contain
neither marker — and the content contains no end marker while the timestamp
contains no `<`.  (For notes with stray markers idempotence fails, see the
counterexample.) -/
theorem splice_idempotent_of_wellformed (notes A ts : List Char)
    (hA2 : ∀ j, ¬ occursAt A end_marker j)
    (hts : '<' ∉ ts)
    (hwf : (∃ s e, findSub notes startMark = some s ∧ findSub notes end_marker = some e ∧
        s < e) ∨
      (findSub notes startMark = none ∧ findSub notes end_marker = none)) :
    splice (splice notes A ts) A ts = splice notes A ts := by
  rcases hwf with ⟨s, e, hs, he, hse⟩ | ⟨hsn, hen⟩
  · have hsp := splice_replace notes A ts hs he hse
    rw [hsp]
    set b := notes.take s with hbdef
    set a := notes.drop (e + end_marker.length) with hadef
    have hoccs := (findSub_eq_some_iff notes startMark s).mp hs
    have hocce := (findSub_eq_some_iff notes end_marker e).mp he
    have hbs : s + 8 ≤ notes.length := by
      have hx := occursAt_bound (p := startMark) (by decide) hoccs.1
      rwa [startMark_length] at hx
    have hblen : b.length = s := by rw [hbdef, List.length_take]; omega
    have hbP : ∀ j, ¬ occursAt b startMark j := by
      intro j hocc
      have hj8 := occursAt_bound (p := startMark) (by decide) hocc
      rw [startMark_length, hblen] at hj8
      exact hoccs.2 j (by omega) (occursAt_of_take hocc)
    have hbE : ∀ j, ¬ occursAt b end_marker j := by
      intro j hocc
      have hj12 := occursAt_bound (p := end_marker) (by decide) hocc
      rw [end_marker_length, hblen] at hj12
      exact hocce.2 j (by omega) (occursAt_of_take hocc)
    have hassoc : b ++ new_section ts A ++ a = b ++ (new_section ts A ++ a) :=
      List.append_assoc b (new_section ts A) a
    have hf1 : findSub (b ++ new_section ts A ++ a) startMark = some b.length := by
      rw [hassoc]; exact findSub_startMark_at b a ts A hbP
    have hf2 : findSub (b ++ new_section ts A ++ a) end_marker =
        some (b.length + (ts.length + 14 + A.length)) := by
      rw [hassoc]; exact findSub_end_marker_at b a ts A hbE hts hA2
    have hlt : b.length < b.length + (ts.length + 14 + A.length) := by omega
    rw [splice_replace (b ++ new_section ts A ++ a) A ts hf1 hf2 hlt]
    have htake : (b ++ new_section ts A ++ a).take b.length = b := by
      rw [hassoc]
      exact List.take_left b (new_section ts A ++ a)
    have hidx : b.length + (ts.length + 14 + A.length) + end_marker.length =
        (b ++ new_section ts A).length := by
      simp only [List.length_append, new_section_length, end_marker_length]
      omega
    have hdrop : (b ++ new_section ts A ++ a).drop
        (b.length + (ts.length + 14 + A.length) + end_marker.length) = a := by
      rw [hidx]
      exact List.drop_left (b ++ new_section ts A) a
    rw [htake, hdrop]
  · have hsp := splice_no_marks notes A ts hsn hen
    rw [hsp]
    unfold append_section
    set sep := (if notes.isEmpty then ([] : List Char) else nlc ++ nlc) with hsepdef
    have hsep : ∀ c ∈ sep, c = '\n' := by
      rw [hsepdef]
      split
      · intro c hc
        simp at hc
      · intro c hc
        rcases List.mem_append.mp hc with h | h <;> simpa [nlc] using h
    have hbP : ∀ j, ¬ occursAt (notes ++ sep) startMark j :=
      no_occurs_append_newline notes sep startMark
        ((findSub_eq_none_iff notes startMark).mp hsn) hsep (by decide) (by decide)
    have hbE : ∀ j, ¬ occursAt (notes ++ sep) end_marker j :=
      no_occurs_append_newline notes sep end_marker
        ((findSub_eq_none_iff notes end_marker).mp hen) hsep (by decide) (by decide)
    have hassoc : notes ++ sep ++ new_section ts A =
        (notes ++ sep) ++ (new_section ts A ++ []) := by
      rw [List.append_nil]
    have hf1 : findSub (notes ++ sep ++ new_section ts A) startMark =
        some (notes ++ sep).length := by
      rw [hassoc]; exact findSub_startMark_at (notes ++ sep) [] ts A hbP
    have hf2 : findSub (notes ++ sep ++ new_section ts A) end_marker =
        some ((notes ++ sep).length + (ts.length + 14 + A.length)) := by
      rw [hassoc]; exact findSub_end_marker_at (notes ++ sep) [] ts A hbE hts hA2
    have hlt : (notes ++ sep).length <
        (notes ++ sep).length + (ts.length + 14 + A.length) := by omega
    rw [splice_replace (notes ++ sep ++ new_section ts A) A ts hf1 hf2 hlt]
    have htake : (notes ++ sep ++ new_section ts A).take (notes ++ sep).length =
        notes ++ sep := List.take_left (notes ++ sep) (new_section ts A)
    have hidx : (notes ++ sep).length + (ts.length + 14 + A.length) + end_marker.length =
        (notes ++ sep ++ new_section ts A).length := by
      simp only [List.length_append, new_section_length, end_marker_length]
      omega
    have hdrop : (notes ++ sep ++ new_section ts A).drop
        ((notes ++ sep).length + (ts.length + 14 + A.length) + end_marker.length) = [] := by
      rw [hidx]
      exact List.drop_length _
    rw [htake, hdrop, List.append_nil]

def notesC3 : List Char :=
  ("u<!-- WA-t").data ++ markClose ++ ("x<!-- /WA").data ++ markClose ++ ("v").data

/-- Witness for the amended C3 at concrete well-formed notes. -/
theorem splice_idempotent_of_wellformed_witness :
    splice (splice notesC3 (("Z").data) (("T").data)) (("Z").data) (("T").data) =
      splice notesC3 (("Z").data) (("T").data) :=
  splice_idempotent_of_wellformed notesC3 (("Z").data) (("T").data)
    (no_occurs_of_short (by decide) (by decide))
    (by decide)
    (Or.inl ⟨1, 15, by decide, by decide, by decide⟩)

/-- Claim C3 counterexample: notes containing a stray start-marker prefix and
no end marker.  The first splice appends a fresh section; the second splice
then pairs the stray prefix with the appended end marker and replaces from the
stray prefix on, so applying the splice twice differs from applying it once. -/
theorem splice_not_idempotent_cex :
    splice (splice (("a<!-- WA-b").data) (("Z").data) (("T").data))
        (("Z").data) (("T").data) ≠
      splice (("a<!-- WA-b").data) (("Z").data) (("T").data) := by
  decide

theorem alpha_not_digit {c : Char} (h : chAlpha c = true) : chDigit c = false := by
  cases hd : chDigit c
  · rfl
  · exfalso
    unfold chAlpha at h
    unfold chDigit at hd
    simp only [Bool.or_eq_true, Bool.and_eq_true, decide_eq_true_eq] at h hd
    rcases h with ⟨h1, _⟩ | ⟨h1, _⟩
    · exact absurd (le_trans h1 hd.2) (by decide)
    · exact absurd (le_trans h1 hd.2) (by decide)

theorem digit_not_alpha {c : Char} (h : chDigit c = true) : chAlpha c = false := by
  cases ha : chAlpha c
  · rfl
  · rw [alpha_not_digit ha] at h
    cases h

theorem matchTokenAt_eq_some_iff (s m : List Char) :
    matchTokenAt s = some m ↔ isToken m = true ∧ startsWith m s = true := by
  constructor
  · intro h
    unfold matchTokenAt at h
    split at h
    · rename_i a b c d e f rest
      split at h
      · rename_i hcond
        injection h with h
        subst h
        simp only [Bool.and_eq_true] at hcond
        obtain ⟨⟨⟨⟨⟨ha, hb⟩, hc⟩, hd⟩, he⟩, hf⟩ := hcond
        constructor
        · simp [isToken, ha, hb, hc, hd, he, hf]
        · simp [startsWith]
      · split at h
        · rename_i hcond
          injection h with h
          subst h
          simp only [Bool.and_eq_true] at hcond
          obtain ⟨⟨⟨⟨ha, hb⟩, hc⟩, hd⟩, he⟩ := hcond
          constructor
          · simp [isToken, ha, hb, hc, hd, he]
          · simp [startsWith]
        · cases h
    · rename_i a b c d e
      split at h
      · rename_i hcond
        injection h with h
        subst h
        simp only [Bool.and_eq_true] at hcond
        obtain ⟨⟨⟨⟨ha, hb⟩, hc⟩, hd⟩, he⟩ := hcond
        constructor
        · simp [isToken, ha, hb, hc, hd, he]
        · simp [startsWith]
      · cases h
    · cases h
  · rintro ⟨htok, hsw⟩
    obtain ⟨t, rfl⟩ := (startsWith_iff m s).mp hsw
    unfold isToken at htok
    simp only [Bool.and_eq_true, Bool.or_eq_true, beq_iff_eq] at htok
    obtain ⟨⟨hlen, hal⟩, hdig⟩ := htok
    rcases hlen with h5 | h6
    · obtain ⟨a, b, c, d, e, rfl⟩ : ∃ a b c d e, m = [a, b, c, d, e] := by
        match m, h5 with
        | [a, b, c, d, e], _ => exact ⟨a, b, c, d, e, rfl⟩
      simp only [List.length_cons, List.length_nil] at hal hdig
      simp only [show (4 + 1 : Nat) - 2 = 3 from rfl] at hal hdig
      simp only [List.take, List.drop, List.all_cons, List.all_nil, Bool.and_eq_true] at hal hdig
      obtain ⟨ha, hb, hc, -⟩ := hal
      obtain ⟨hd, he, -⟩ := hdig
      cases t with
      | nil => simp [matchTokenAt, ha, hb, hc, hd, he]
      | cons f t2 => simp [matchTokenAt, ha, hb, hc, hd, he, digit_not_alpha hd]
    · obtain ⟨a, b, c, d, e, f, rfl⟩ : ∃ a b c d e f, m = [a, b, c, d, e, f] := by
        match m, h6 with
        | [a, b, c, d, e, f], _ => exact ⟨a, b, c, d, e, f, rfl⟩
      simp only [List.length_cons, List.length_nil] at hal hdig
      simp only [show (5 + 1 : Nat) - 2 = 4 from rfl] at hal hdig
      simp only [List.take, List.drop, List.all_cons, List.all_nil, Bool.and_eq_true] at hal hdig
      obtain ⟨ha, hb, hc, hd, -⟩ := hal
      obtain ⟨he, hf, -⟩ := hdig
      simp [matchTokenAt, ha, hb, hc, hd, he, hf]

theorem tokenAt_unique {s : List Char} {i : Nat} {w w2 : List Char}
    (h1 : tokenAt s i w) (h2 : tokenAt s i w2) : w = w2 := by
  have e1 : matchTokenAt (s.drop i) = some w :=
    (matchTokenAt_eq_some_iff (s.drop i) w).mpr ⟨h1.1, h1.2⟩
  have e2 : matchTokenAt (s.drop i) = some w2 :=
    (matchTokenAt_eq_some_iff (s.drop i) w2).mpr ⟨h2.1, h2.2⟩
  rw [e1] at e2
  injection e2

theorem searchToken_spec (s : List Char) :
    (searchToken s = none → ∀ i w, ¬ tokenAt s i w) ∧
    (∀ m, searchToken s = some m →
      ∃ i, tokenAt s i m ∧ ∀ j w, j < i → ¬ tokenAt s j w) := by
  induction s with
  | nil =>
    constructor
    · rintro _ i w ⟨htok, hocc⟩
      rw [occursAt_iff] at hocc
      obtain ⟨t, ht⟩ := hocc
      rw [List.drop_nil] at ht
      have hw : w = [] := by
        cases w with
        | nil => rfl
        | cons x xs => cases ht
      subst hw
      simp [isToken] at htok
    · intro m hm
      cases hm
  | cons a t ih =>
    have hshift : ∀ k w, tokenAt (a :: t) (k + 1) w ↔ tokenAt t k w := by
      intro k w
      unfold tokenAt occursAt
      rw [List.drop_succ_cons]
    constructor
    · intro hn i w htk
      unfold searchToken at hn
      rcases hmt : matchTokenAt (a :: t) with _ | m
      · rw [hmt] at hn
        cases i with
        | zero =>
          have hx := (matchTokenAt_eq_some_iff (a :: t) w).mpr ⟨htk.1, htk.2⟩
          rw [hmt] at hx
          cases hx
        | succ k =>
          exact (ih.1 hn) k w ((hshift k w).mp htk)
      · rw [hmt] at hn
        cases hn
    · intro m hm
      unfold searchToken at hm
      rcases hmt : matchTokenAt (a :: t) with _ | m2
      · rw [hmt] at hm
        obtain ⟨i, hti, hmin⟩ := ih.2 m hm
        refine ⟨i + 1, (hshift i m).mpr hti, ?_⟩
        intro j w hj htkj
        cases j with
        | zero =>
          have hx := (matchTokenAt_eq_some_iff (a :: t) w).mpr ⟨htkj.1, htkj.2⟩
          rw [hmt] at hx
          cases hx
        | succ k =>
          exact hmin k w (by omega) ((hshift k w).mp htkj)
      · rw [hmt] at hm
        injection hm with hm
        subst hm
        have htk0 := (matchTokenAt_eq_some_iff (a :: t) m2).mp hmt
        exact ⟨0, ⟨htk0.1, htk0.2⟩, by omega⟩

/-- Claim C7: for every rule name containing a substring matching
`[A-Za-z]{3,4}[0-9]{2}`, `extract_question_id` returns that substring
uppercased, taken at the first (leftmost) match; for every rule name with no
such substring it returns `None` rather than raising. -/
theorem extract_question_id_correct (s : List Char) :
    ((∀ i w, ¬ tokenAt s i w) → extract_question_id s = none) ∧
    (∀ i w, tokenAt s i w → (∀ j v, j < i → ¬ tokenAt s j v) →
      extract_question_id s = some (w.map Char.toUpper)) := by
  constructor
  · intro hno
    unfold extract_question_id
    rcases hst : searchToken s with _ | m
    · rfl
    · obtain ⟨i, hti, _⟩ := (searchToken_spec s).2 m hst
      exact absurd hti (hno i m)
  · intro i w htk hmin
    unfold extract_question_id
    rcases hst : searchToken s with _ | m
    · exact absurd htk ((searchToken_spec s).1 hst i w)
    · obtain ⟨i2, hti2, hmin2⟩ := (searchToken_spec s).2 m hst
      have hii : i = i2 := by
        by_contra hne
        rcases Nat.lt_or_ge i i2 with hlt | hge
        · exact hmin2 i w hlt htk
        · exact hmin i2 m (by omega) hti2
      subst hii
      have hwm : w = m := tokenAt_unique htk hti2
      subst hwm
      rfl

/-- Witness for C7: the parser extracts `SEC05` from a lowercase rule name. -/
theorem extract_question_id_correct_witness :
    extract_question_id (("sec05-network-protection_bp").data) =
      some (("SEC05").data) :=
  ((extract_question_id_correct (("sec05-network-protection_bp").data)).2 0
    (("sec05").data) (by decide)
    (fun j v hj => absurd hj (Nat.not_lt_zero j))).trans (by decide)

end WATool
